import Mathlib

/-!
Verification of `src/main/python/rlbot/utils/proton_hack.py`.

The file shallowly embeds the two components of that module:

* `ACFFile._parse` — a line-oriented, permissive parser for Valve's nested
  key/value text format.  Lines are modelled as `List Char` (one entry per
  line of the file, without the trailing newline, which the `re.MULTILINE`
  anchors make irrelevant).  The four regexes are modelled as executable
  matching functions whose backtracking behaviour follows Python's `re`
  (greedy groups, leftmost-longest for `(.+)`).
* `ProtonHack` — the resolver: `_locate_library_folder`, `_find_proton_dir`,
  `_prepare_env`, `prefix_proton_cmd`, `run_in_proton_prefix` and
  `__init__`.  Python exceptions are modelled with `Except PyErr`; the
  filesystem is an explicit oracle inside a `World` structure.
-/

set_option maxRecDepth 10000

/-- Strings from the Python source are modelled as lists of characters. -/
abbrev Str := List Char

/-- Shorthand turning a Lean string literal into the `Str` model. -/
def cs (s : String) : Str := s.toList

mutual
/-- A parsed value: either a leaf string or a nested object, mirroring the
plain Python `dict` whose values are `str` or `dict`. -/
inductive KV where
  | leaf : Str → KV
  | node : Ents → KV
  deriving DecidableEq

/-- An insertion-ordered string-keyed dictionary (Python `dict`). -/
inductive Ents where
  | nil : Ents
  | cons : Str → KV → Ents → Ents
  deriving DecidableEq
end

/-- Python `d[k] = v`: replaces the value in place if `k` is present
(keeping its position), otherwise appends the binding at the end. -/
def dictInsert (k : Str) (v : KV) : Ents → Ents
  | .nil => .cons k v .nil
  | .cons k2 v2 r => if k2 = k then .cons k v r else .cons k2 v2 (dictInsert k v r)

/-- Python `d[k]` / `k in d`: first (only) binding of `k`. -/
def dictLookup (k : Str) : Ents → Option KV
  | .nil => none
  | .cons k2 v r => if k2 = k then some v else dictLookup k r

/-- Concatenation of two dictionaries (used only to state theorems). -/
def entsAppend : Ents → Ents → Ents
  | .nil, b => b
  | .cons k v r, b => .cons k v (entsAppend r b)

/-- Every entry satisfies the given boolean predicate. -/
def entsAll (p : Str × KV → Bool) : Ents → Bool
  | .nil => true
  | .cons k v r => p (k, v) && entsAll p r

/-- Some entry satisfies the given boolean predicate. -/
def entsAny (p : Str × KV → Bool) : Ents → Bool
  | .nil => false
  | .cons k v r => p (k, v) || entsAny p r

/-- `k` is not a key of the dictionary. -/
def keyAbsent (k : Str) : Ents → Bool
  | .nil => true
  | .cons k2 _ r => if k2 = k then false else keyAbsent k r

/-! ## The four line regexes of `ACFFile`

`_OBJECT_NAME_RE  = ^\t*"(.+)"$`
`_OBJECT_BEGIN_RE = ^\t*{$`
`_OBJECT_FINISH_RE = ^\t*}$`
`_KEY_VALUE_RE   = ^\t*"(.+)"\t+"(.*)"$`

All are applied with `re.match` to single lines, so they are anchored at
both ends.  `\t*` at the start is equivalent to dropping the leading tabs.
-/

/-- Drop the leading run of tabs of a line (the `^\t*` part of each regex). -/
def dropTabs (l : Str) : Str := l.dropWhile (fun c => c = '\t')

/-- `_OBJECT_BEGIN_RE`: the line is tabs followed by a single brace-open. -/
def matchBegin (l : Str) : Bool := dropTabs l = ['{']

/-- `_OBJECT_FINISH_RE`: the line is tabs followed by a single brace-close. -/
def matchFinish (l : Str) : Bool := dropTabs l = ['}']

/-- `_OBJECT_NAME_RE`: tabs, then a quoted nonempty text reaching the end of
the line.  The greedy group captures everything between the first quote and
the final character, which must be a quote. -/
def matchName (l : Str) : Option Str :=
  match dropTabs l with
  | c :: rest =>
    if c = '"' ∧ 2 ≤ rest.length ∧ rest.getLast? = some '"' then some rest.dropLast
    else none
  | [] => none

/-- After group 1's closing quote, `_KEY_VALUE_RE` requires `\t+"(.*)"$`:
a nonempty run of tabs (greedy `\t+` must end exactly at a quote, since
backtracking into the run only exposes more tabs), an opening quote, and a
closing quote as the final character of the line; the second group is what
stands between the two quotes. -/
def checkAfter (w : Str) : Option Str :=
  if w.head? = some '\t' then
    match w.dropWhile (fun c => c = '\t') with
    | c :: z => if c = '"' ∧ z.getLast? = some '"' then some z.dropLast else none
    | [] => none
  else none

/-- Backtracking search for group 1 of `_KEY_VALUE_RE` over the text `u`
following the first quote: the greedy `(.+)` selects the rightmost closing
quote whose continuation satisfies `checkAfter`; the result pairs the
group-1 text with the group-2 text. -/
def kvFind0 : Str → Option (Str × Str)
  | [] => none
  | c :: u =>
    match kvFind0 u with
    | some (k, v) => some (c :: k, v)
    | none => if c = '"' then (checkAfter u).map (fun v => (([] : Str), v)) else none

/-- `_KEY_VALUE_RE`: tabs, a quote, then the greedy decomposition found by
`kvFind0`; group 1 (`.+`) must be nonempty. -/
def matchKV (l : Str) : Option (Str × Str) :=
  match dropTabs l with
  | c :: u =>
    if c = '"' then
      match kvFind0 u with
      | some (k, v) => if k = [] then none else some (k, v)
      | none => none
    else none
  | [] => none

/-! ## `ACFFile._parse`

The Python method reads lines from a shared iterator; recursive calls
continue consuming from where the caller stopped.  `parseAux` returns the
accumulated dictionary together with the unconsumed lines; the `fuel`
argument (always at least the number of lines) only forces termination. -/

/-- One-to-one translation of `ACFFile._parse`: try `_OBJECT_BEGIN_RE`
(`continue`), then `_KEY_VALUE_RE` (record a leaf), then `_OBJECT_NAME_RE`
(record the result of a recursive parse over the remaining lines), then
`_OBJECT_FINISH_RE` (`break`, returning to the caller). -/
def parseAux : Nat → Ents → List Str → Ents × List Str
  | _, acc, [] => (acc, [])
  | 0, acc, l :: rest => (acc, l :: rest)
  | f + 1, acc, l :: rest =>
    if matchBegin l then parseAux f acc rest
    else
      match matchKV l with
      | some (k, v) =>
        let acc2 := dictInsert k (.leaf v) acc
        if matchFinish l then (acc2, rest) else parseAux f acc2 rest
      | none =>
        match matchName l with
        | some k =>
          let inner := parseAux f .nil rest
          let acc2 := dictInsert k (.node inner.1) acc
          if matchFinish l then (acc2, inner.2) else parseAux f acc2 inner.2
        | none =>
          if matchFinish l then (acc, rest) else parseAux f acc rest

/-- `ACFFile._parse` applied to a whole document (a list of lines). -/
def parseACF (ls : List Str) : Ents := (parseAux ls.length .nil ls).1

/-! ## `ProtonHack`

Python exceptions that the resolver can raise are modelled explicitly;
`Except PyErr` results make "returns" and "raises" distinguishable. -/

/-- Exceptions raised by the resolver code paths. -/
inductive PyErr where
  | attrError   -- AttributeError (e.g. `.joinpath`/`.items`/`.keys` on a non-dict)
  | keyError    -- KeyError (missing dictionary key)
  | valueError  -- ValueError (tuple unpacking of `str.split`)
  | typeError   -- TypeError (`Path(dict)`, subscripting a str)
  deriving DecidableEq

/-- Python `str.split('-')` (no maxsplit): splits on every dash;
the result always has one more part than there are dashes. -/
def splitDash : Str → List Str
  | [] => [[]]
  | c :: rest =>
    let r := splitDash rest
    if c = '-' then [] :: r
    else
      match r with
      | [] => [[c]]
      | s :: ss => (c :: s) :: ss

/-- Python whitespace characters recognised by `str.strip()`. -/
def isPySpace (c : Char) : Bool :=
  c = ' ' || c = '\t' || c = '\n' || c = '\r' || c = '\x0b' || c = '\x0c'

/-- Python `str.strip()`. -/
def pyStrip (s : Str) : Str :=
  ((s.dropWhile isPySpace).reverse.dropWhile isPySpace).reverse

/-- Python `f.readline()` on a text file: the first line (here without the
trailing newline, which the following `strip` removes anyway). -/
def readFirstLine (content : Str) : Str := content.takeWhile (fun c => c ≠ '\n')

/-- The marker-processing step of `ProtonHack._find_proton_dir`:
`proton_version, _ = version.split('-')` followed by
`f"Proton {proton_version}"`.  The tuple unpacking raises `ValueError`
unless the split yields exactly two parts. -/
def protonDirOfVersion (version : Str) : Except PyErr Str :=
  match splitDash version with
  | [pv, _] => .ok (cs "Proton " ++ pv)
  | _ => .error .valueError

/-- Runtime-directory name derived from the raw content of the `version`
marker file: `version = f.readline().strip()` then `protonDirOfVersion`. -/
def derivedRuntimeDirName (content : Str) : Except PyErr Str :=
  protonDirOfVersion (pyStrip (readFirstLine content))

/-- Model of `pathlib` `joinpath` on string-rendered paths. -/
def pathJoin (a b : Str) : Str := a ++ '/' :: b

/-- `pathlib` drops a single trailing slash when rendering a path. -/
def pathNorm (s : Str) : Str := if s.getLast? = some '/' then s.dropLast else s

/-- The loop body of `ProtonHack._locate_library_folder`: first entry whose
value is a dict, has an `apps` key, and whose `apps` dict has the game id
as a key; returns that entry's key.  Calling `.keys()` on a leaf `apps`
raises `AttributeError`. -/
def locateLoop (gid : Str) : Ents → Except PyErr (Option Str)
  | .nil => .ok none
  | .cons k v rest =>
    match v with
    | .leaf _ => locateLoop gid rest
    | .node fields =>
      match dictLookup (cs "apps") fields with
      | none => locateLoop gid rest
      | some (.leaf _) => .error .attrError
      | some (.node apps) =>
        if (dictLookup gid apps).isSome then .ok (some k) else locateLoop gid rest

/-- `ProtonHack._locate_library_folder` over the accumulated `_acf` dict:
reads `self._acf['libraryfolders']` (KeyError if absent, AttributeError if
it is a leaf since `.items()` is called on it), runs the search loop, and
on a match returns `Path(self._acf['libraryfolders'][k]['path'])`. -/
def locate_library_folder (acf : Ents) (gid : Str) : Except PyErr (Option Str) :=
  match dictLookup (cs "libraryfolders") acf with
  | none => .error .keyError
  | some (.leaf _) => .error .attrError
  | some (.node lf) =>
    match locateLoop gid lf with
    | .error e => .error e
    | .ok none => .ok none
    | .ok (some k) =>
      match dictLookup k lf with
      | none => .error .keyError
      | some (.leaf _) => .error .typeError
      | some (.node fields) =>
        match dictLookup (cs "path") fields with
        | none => .error .keyError
        | some (.leaf p) => .ok (some p)
        | some (.node _) => .error .typeError

/-- The loop of `ProtonHack._find_proton_dir`: first entry that is a dict,
has an `apps` key, and whose `path` joined with
`steamapps/common/<dirname>/` exists on disk.  `v['path']` raises
`KeyError` when absent and `Path(dict)` raises `TypeError`. -/
def findProtonLoop (dirname : Str) (dirExists : Str → Bool) : Ents → Except PyErr (Option Str)
  | .nil => .ok none
  | .cons _ v rest =>
    match v with
    | .leaf _ => findProtonLoop dirname dirExists rest
    | .node fields =>
      match dictLookup (cs "apps") fields with
      | none => findProtonLoop dirname dirExists rest
      | some _ =>
        match dictLookup (cs "path") fields with
        | none => .error .keyError
        | some (.node _) => .error .typeError
        | some (.leaf p) =>
          let cand := pathJoin p (pathNorm (cs "steamapps/common/" ++ dirname ++ ['/']))
          if dirExists cand then .ok (some cand) else findProtonLoop dirname dirExists rest

/-- The filesystem and configuration a `ProtonHack` construction runs in:
the two parsed `.acf` documents, the game id, the content of a `version`
file by path (`none` = the file does not exist), and a directory-existence
oracle. -/
structure World where
  lfDoc : Ents
  amDoc : Ents
  gid : Str
  versionFileAt : Str → Option Str
  dirExists : Str → Bool

/-- `ProtonHack._find_proton_dir`: returns `None` when the `version` marker
file is absent; otherwise derives the runtime directory name from its first
line and scans all library entries for an existing runtime directory. -/
def find_proton_dir (acf : Ents) (compat_data : Str) (w : World) : Except PyErr (Option Str) :=
  match w.versionFileAt (pathJoin compat_data (cs "version")) with
  | none => .ok none
  | some content =>
    match derivedRuntimeDirName content with
    | .error e => .error e
    | .ok proton_dir =>
      match dictLookup (cs "libraryfolders") acf with
      | none => .error .keyError
      | some (.leaf _) => .error .attrError
      | some (.node lf) => findProtonLoop proton_dir w.dirExists lf

/-- `ProtonHack._prepare_env`. -/
def prepare_env (compat_data : Str) : List (Str × Str) :=
  [(cs "STEAM_COMPAT_DATA_PATH", compat_data)]

/-- `ProtonHack.prefix_proton_cmd`: `[str(self._proton_bin), "runinprefix"] + command`. -/
def prefix_proton_cmd (proton_bin : Str) (command : List Str) : List Str :=
  [proton_bin, cs "runinprefix"] ++ command

/-- Python `dict(os.environ)` updated with `self.env`: the dictionary the
temporary in `run_in_proton_prefix` holds after `.update`. -/
def mergedEnviron (osEnviron selfEnv : List (Str × Str)) : List (Str × Str) :=
  selfEnv.foldl (fun acc p => if acc.any (fun q => q.1 = p.1)
    then acc.map (fun q => if q.1 = p.1 then p else q) else acc ++ [p]) osEnviron

/-- The `env` argument handed to `subprocess.run` by
`ProtonHack.run_in_proton_prefix`.  When the caller omits `env`, the code
executes `env = dict(os.environ).update(self.env)`: `dict.update` mutates
the temporary (which becomes `mergedEnviron`) but returns `None`, so the
value bound to `env` — and handed to the launcher — is `None`. -/
def run_in_proton_prefix_env (osEnviron selfEnv : List (Str × Str))
    (env : Option (List (Str × Str))) : Option (List (Str × Str)) :=
  match env with
  | none =>
    let _merged := mergedEnviron osEnviron selfEnv
    none
  | some e => some e

/-- The resolved state a successful `ProtonHack.__init__` leaves behind. -/
structure PHState where
  library_base_dir : Str
  compat_data : Str
  proton_base_dir : Str
  proton_bin : Str
  env : List (Str × Str)
  acf : Ents

/-- Python `dict.update` with another dict's items, left to right. -/
def dictUpdate (acc : Ents) : Ents → Ents
  | .nil => acc
  | .cons k v r => dictUpdate (dictInsert k v acc) r

/-- `ProtonHack.__init__`: builds `_acf` from the two parsed files, then
`_library_base_dir = self._locate_library_folder()`,
`_compat_data = self._library_base_dir.joinpath(...)` (AttributeError when
the former is `None`), `_proton_base_dir = self._find_proton_dir()`,
`_proton_bin = self._proton_base_dir.joinpath('proton')` (AttributeError
when the former is `None`), and `env = self._prepare_env()`. -/
def initAcf (w : World) : Ents :=
  dictInsert (cs "appmanifest") (.node w.amDoc) (dictUpdate .nil w.lfDoc)

def protonHackInit (w : World) : Except PyErr PHState :=
  let acf := initAcf w
  match locate_library_folder acf w.gid with
  | .error e => .error e
  | .ok none => .error .attrError
  | .ok (some base) =>
    let compat := pathJoin base (pathNorm (cs "steamapps/compatdata/" ++ w.gid ++ ['/']))
    match find_proton_dir acf compat w with
    | .error e => .error e
    | .ok none => .error .attrError
    | .ok (some protonBase) =>
      .ok { library_base_dir := base
            compat_data := compat
            proton_base_dir := protonBase
            proton_bin := pathJoin protonBase (cs "proton")
            env := prepare_env compat
            acf := acf }

/-! ## Serialization of a tree in the grammar of the spec (§4.1)

Used to state the round-trip and duplicate-key claims: tab-indented quoted
keys, object-open/close brace lines, tab-separated quoted key/value lines. -/

/-- `d` tab characters of indentation. -/
def tabs (d : Nat) : Str := List.replicate d '\t'

/-- A key-value line with `d` leading tabs and `m` separating tabs. -/
def leafLineG (d : Nat) (k : Str) (m : Nat) (v : Str) : Str :=
  tabs d ++ '"' :: (k ++ '"' :: (tabs m ++ '"' :: (v ++ ['"'])))

/-- A key-value line with a single tab separator (the conventional form). -/
def leafLine (d : Nat) (k v : Str) : Str := leafLineG d k 1 v

/-- A key line announcing a nested object. -/
def nameLine (d : Nat) (k : Str) : Str := tabs d ++ '"' :: (k ++ ['"'])

/-- An object-open line. -/
def openLine (d : Nat) : Str := tabs d ++ ['{']

/-- An object-close line. -/
def closeLine (d : Nat) : Str := tabs d ++ ['}']

mutual
/-- Serialization of one binding at indentation depth `d`. -/
def serializeKV (d : Nat) (k : Str) : KV → List Str
  | .leaf v => [leafLine d k v]
  | .node sub => nameLine d k :: openLine d :: (serializeEnts (d + 1) sub ++ [closeLine d])
/-- Serialization of a dictionary at indentation depth `d`. -/
def serializeEnts (d : Nat) : Ents → List Str
  | .nil => []
  | .cons k v r => serializeKV d k v ++ serializeEnts d r
end

/-- A character that survives the grammar: not a quote, tab, or newline. -/
def safeChar (c : Char) : Bool := !(c = '"' || c = '\t' || c = '\n')

/-- All characters of the string are grammar-safe. -/
def safeStr (s : Str) : Bool := s.all safeChar

mutual
/-- Values whose strings are grammar-safe. -/
def safeKV : KV → Bool
  | .leaf v => safeStr v
  | .node d => safeEnts d
/-- Dictionaries whose keys are nonempty and grammar-safe, recursively. -/
def safeEnts : Ents → Bool
  | .nil => true
  | .cons k v r => !k.isEmpty && safeStr k && safeKV v && safeEnts r
end

mutual
/-- Height measure, used for induction. -/
def kvH : KV → Nat
  | .leaf _ => 0
  | .node d => entsH d + 1
/-- Height measure, used for induction. -/
def entsH : Ents → Nat
  | .nil => 0
  | .cons _ v r => kvH v + entsH r + 1
end

mutual
/-- The value a parse of a serialized tree reconstructs: leaves unchanged,
nested objects rebuilt by insertion (collapsing duplicate keys). -/
def normKV : KV → KV
  | .leaf v => .leaf v
  | .node sub => .node (insertAllN .nil sub)
/-- Folding a binding list into an accumulator dictionary with
`dictInsert`, normalizing each value. -/
def insertAllN : Ents → Ents → Ents
  | acc, .nil => acc
  | acc, .cons k v r => insertAllN (dictInsert k (normKV v) acc) r
end

mutual
/-- Sibling keys are pairwise distinct, recursively at every level. -/
def nodupKV : KV → Bool
  | .leaf _ => true
  | .node d => nodupEnts d
/-- Sibling keys are pairwise distinct, recursively at every level. -/
def nodupEnts : Ents → Bool
  | .nil => true
  | .cons k v r => keyAbsent k r && nodupKV v && nodupEnts r
end

/-- The value attached to the last binding of `k` in the list, if any. -/
def lastAssoc (k : Str) : Ents → Option KV
  | .nil => none
  | .cons k2 v r =>
    match lastAssoc k r with
    | some w => some w
    | none => if k2 = k then some v else none

/-! ## Line classification lemmas -/

theorem dropTabs_tabs_append (d : Nat) (l : Str) : dropTabs (tabs d ++ l) = dropTabs l := by
  induction d with
  | zero => simp [tabs]
  | succ d ih => simpa [tabs, dropTabs, List.replicate_succ] using ih

theorem dropTabs_quote (l : Str) : dropTabs ('"' :: l) = '"' :: l := by
  simp [dropTabs]

theorem safeStr_cons {c : Char} {v : Str} (h : safeStr (c :: v) = true) :
    safeChar c = true ∧ safeStr v = true := by
  simpa [safeStr] using h

theorem safeChar_spec {c : Char} (h : safeChar c = true) :
    c ≠ '"' ∧ c ≠ '\t' ∧ c ≠ '\n' := by
  simp [safeChar] at h
  tauto

theorem kvFind0_concat_none {v : Str} (h : safeStr v = true) :
    kvFind0 (v ++ ['"']) = none := by
  induction v with
  | nil => rfl
  | cons c v ih =>
    obtain ⟨hc, hv⟩ := safeStr_cons h
    simp [kvFind0, ih hv, (safeChar_spec hc).1]

theorem head_not_tab {v : Str} (h : safeStr v = true) :
    (v ++ ['"']).head? ≠ some '\t' := by
  cases v with
  | nil => simp
  | cons c v =>
    obtain ⟨hc, _⟩ := safeStr_cons h
    simp [(safeChar_spec hc).2.1]

theorem checkAfter_concat_none {v : Str} (h : safeStr v = true) :
    checkAfter (v ++ ['"']) = none := by
  cases v with
  | nil => rfl
  | cons c v =>
    have hc := (safeChar_spec (safeStr_cons h).1).2.1
    unfold checkAfter
    simp [hc]

theorem kvFind0_quoted_none {v : Str} (h : safeStr v = true) :
    kvFind0 ('"' :: (v ++ ['"'])) = none := by
  simp [kvFind0, kvFind0_concat_none h, checkAfter_concat_none h]

theorem tabs_succ (m : Nat) : tabs (m + 1) = '\t' :: tabs m := by
  simp [tabs, List.replicate_succ]

theorem kvFind0_tabs_none {v : Str} (m : Nat) (h : safeStr v = true) :
    kvFind0 (tabs m ++ '"' :: (v ++ ['"'])) = none := by
  induction m with
  | zero => simpa [tabs] using kvFind0_quoted_none h
  | succ m ih =>
    rw [tabs_succ, List.cons_append]
    simp [kvFind0, ih]

theorem checkAfter_tabs {v : Str} {m : Nat} (hm : 1 ≤ m) (h : safeStr v = true) :
    checkAfter (tabs m ++ '"' :: (v ++ ['"'])) = some v := by
  obtain ⟨m, rfl⟩ : ∃ m2, m = m2 + 1 := ⟨m - 1, by omega⟩
  unfold checkAfter
  have hhead : (tabs (m + 1) ++ '"' :: (v ++ ['"'])).head? = some '\t' := by
    simp [tabs, List.replicate_succ]
  have hdrop : (tabs (m + 1) ++ '"' :: (v ++ ['"'])).dropWhile (fun c => c = '\t')
      = '"' :: (v ++ ['"']) := by
    have := dropTabs_tabs_append (m + 1) ('"' :: (v ++ ['"']))
    simpa [dropTabs] using this
  simp [hhead, hdrop]

theorem kvFind0_main {k v : Str} {m : Nat} (hk : safeStr k = true) (hm : 1 ≤ m)
    (hv : safeStr v = true) :
    kvFind0 (k ++ '"' :: (tabs m ++ '"' :: (v ++ ['"']))) = some (k, v) := by
  induction k with
  | nil =>
    simp [kvFind0, kvFind0_tabs_none m hv, checkAfter_tabs hm hv]
  | cons c k ih =>
    obtain ⟨hc, hk2⟩ := safeStr_cons hk
    simp [kvFind0, ih hk2]

theorem matchKV_leafLineG {k v : Str} {d m : Nat} (hk : safeStr k = true)
    (hk0 : k ≠ []) (hm : 1 ≤ m) (hv : safeStr v = true) :
    matchKV (leafLineG d k m v) = some (k, v) := by
  have hd : dropTabs (leafLineG d k m v)
      = '"' :: (k ++ '"' :: (tabs m ++ '"' :: (v ++ ['"']))) := by
    unfold leafLineG
    rw [dropTabs_tabs_append, dropTabs_quote]
  unfold matchKV
  rw [hd]
  simp only [kvFind0_main hk hm hv]
  simp [hk0]

theorem matchName_nameLine {k : Str} {d : Nat} (hk0 : k ≠ []) :
    matchName (nameLine d k) = some k := by
  have hd : dropTabs (nameLine d k) = '"' :: (k ++ ['"']) := by
    unfold nameLine
    rw [dropTabs_tabs_append, dropTabs_quote]
  unfold matchName
  rw [hd]
  have hlen : 2 ≤ (k ++ ['"']).length := by
    cases k with
    | nil => exact absurd rfl hk0
    | cons c k => simp
  simp [hlen, hk0, List.getLast?_concat, List.dropLast_concat]

theorem matchKV_nameLine {k : Str} {d : Nat} (hk : safeStr k = true) :
    matchKV (nameLine d k) = none := by
  have hd : dropTabs (nameLine d k) = '"' :: (k ++ ['"']) := by
    unfold nameLine
    rw [dropTabs_tabs_append, dropTabs_quote]
  unfold matchKV
  rw [hd]
  simp [kvFind0_concat_none hk]

theorem matchBegin_quoted {d : Nat} {l : Str} : matchBegin (tabs d ++ '"' :: l) = false := by
  simp [matchBegin, dropTabs_tabs_append, dropTabs_quote]

theorem matchFinish_quoted {d : Nat} {l : Str} : matchFinish (tabs d ++ '"' :: l) = false := by
  simp [matchFinish, dropTabs_tabs_append, dropTabs_quote]

theorem matchBegin_leafLineG {k v : Str} {d m : Nat} :
    matchBegin (leafLineG d k m v) = false := matchBegin_quoted

theorem matchFinish_leafLineG {k v : Str} {d m : Nat} :
    matchFinish (leafLineG d k m v) = false := matchFinish_quoted

theorem matchBegin_nameLine {k : Str} {d : Nat} : matchBegin (nameLine d k) = false :=
  matchBegin_quoted

theorem matchFinish_nameLine {k : Str} {d : Nat} : matchFinish (nameLine d k) = false :=
  matchFinish_quoted

theorem dropTabs_openLine (d : Nat) : dropTabs (openLine d) = ['{'] := by
  unfold openLine
  rw [dropTabs_tabs_append]
  rfl

theorem dropTabs_closeLine (d : Nat) : dropTabs (closeLine d) = ['}'] := by
  unfold closeLine
  rw [dropTabs_tabs_append]
  rfl

theorem matchBegin_openLine (d : Nat) : matchBegin (openLine d) = true := by
  simp [matchBegin, dropTabs_openLine]

theorem matchBegin_closeLine (d : Nat) : matchBegin (closeLine d) = false := by
  simp [matchBegin, dropTabs_closeLine]

theorem matchFinish_closeLine (d : Nat) : matchFinish (closeLine d) = true := by
  simp [matchFinish, dropTabs_closeLine]

theorem matchKV_closeLine (d : Nat) : matchKV (closeLine d) = none := by
  unfold matchKV
  rw [dropTabs_closeLine]
  simp

theorem matchName_closeLine (d : Nat) : matchName (closeLine d) = none := by
  unfold matchName
  rw [dropTabs_closeLine]
  simp

theorem matchFinish_of_matchKV {l : Str} {p : Str × Str} (h : matchKV l = some p) :
    matchFinish l = false := by
  unfold matchKV at h
  unfold matchFinish
  cases hd : dropTabs l with
  | nil => rw [hd] at h; exact absurd h (by simp)
  | cons c rest =>
    rw [hd] at h
    by_cases hc : c = '"'
    · subst hc; simp
    · exact absurd h (by simp [hc])

theorem matchFinish_of_matchName {l : Str} {k : Str} (h : matchName l = some k) :
    matchFinish l = false := by
  unfold matchName at h
  unfold matchFinish
  cases hd : dropTabs l with
  | nil => rw [hd] at h; exact absurd h (by simp)
  | cons c rest =>
    rw [hd] at h
    by_cases hc : c = '"'
    · subst hc; simp
    · exact absurd h (by simp [hc])

/-! ## Parser infrastructure: the cursor only moves forward, and any fuel
of at least the number of lines computes the same result. -/

theorem parseAux_snd_length (f : Nat) : ∀ (acc : Ents) (ls : List Str),
    (parseAux f acc ls).2.length ≤ ls.length := by
  induction f with
  | zero => intro acc ls; cases ls <;> simp [parseAux]
  | succ f ih =>
    intro acc ls
    cases ls with
    | nil => simp [parseAux]
    | cons l rest =>
      simp only [parseAux]
      split
      · exact le_trans (ih acc rest) (by simp)
      · split
        · split
          · simp
          · exact le_trans (ih _ rest) (by simp)
        · split
          · split
            · exact le_trans (ih Ents.nil rest) (by simp)
            · exact le_trans (le_trans (ih _ _) (ih Ents.nil rest)) (by simp)
          · split
            · simp
            · exact le_trans (ih acc rest) (by simp)

theorem parseAux_fuel : ∀ (n : Nat) (ls : List Str) (f g : Nat) (acc : Ents),
    ls.length ≤ n → ls.length ≤ f → ls.length ≤ g →
    parseAux f acc ls = parseAux g acc ls := by
  intro n
  induction n with
  | zero =>
    intro ls f g acc hn _ _
    have : ls = [] := List.length_eq_zero.mp (Nat.le_zero.mp hn)
    subst this
    cases f <;> cases g <;> rfl
  | succ n ih =>
    intro ls f g acc hn hf hg
    cases ls with
    | nil => cases f <;> cases g <;> rfl
    | cons l rest =>
      obtain ⟨f2, rfl⟩ : ∃ f2, f = f2 + 1 := ⟨f - 1, by simp at hf; omega⟩
      obtain ⟨g2, rfl⟩ : ∃ g2, g = g2 + 1 := ⟨g - 1, by simp at hg; omega⟩
      have hrest : rest.length ≤ n := by simp at hn; omega
      have hrf : rest.length ≤ f2 := by simp at hf; omega
      have hrg : rest.length ≤ g2 := by simp at hg; omega
      simp only [parseAux]
      split
      · exact ih rest f2 g2 acc hrest hrf hrg
      · split
        · split
          · rfl
          · exact ih rest f2 g2 _ hrest hrf hrg
        · split
          · have hinner : parseAux f2 Ents.nil rest = parseAux g2 Ents.nil rest :=
              ih rest f2 g2 Ents.nil hrest hrf hrg
            rw [hinner]
            split
            · rfl
            · have hlen2 := parseAux_snd_length g2 Ents.nil rest
              exact ih _ f2 g2 _ (le_trans hlen2 hrest) (le_trans hlen2 hrf)
                (le_trans hlen2 hrg)
          · split
            · rfl
            · exact ih rest f2 g2 acc hrest hrf hrg

/-! ## Parsing a serialized tree -/

theorem safeEnts_cons {k : Str} {v : KV} {r : Ents} (h : safeEnts (.cons k v r) = true) :
    k ≠ [] ∧ safeStr k = true ∧ safeKV v = true ∧ safeEnts r = true := by
  have h2 := h
  simp only [safeEnts, Bool.and_eq_true] at h2
  refine ⟨?_, h2.1.1.2, h2.1.2, h2.2⟩
  have := h2.1.1.1
  cases k with
  | nil => simp at this
  | cons c k => simp

theorem parse_serializeEnts : ∀ (n : Nat) (es : Ents), entsH es ≤ n → safeEnts es = true →
    ∀ (d : Nat) (acc : Ents) (rest : List Str) (f : Nat),
    (serializeEnts d es ++ rest).length ≤ f →
    parseAux f acc (serializeEnts d es ++ rest)
      = parseAux rest.length (insertAllN acc es) rest := by
  intro n
  induction n with
  | zero =>
    intro es hn hs d acc rest f hf
    cases es with
    | nil =>
      simp only [serializeEnts, List.nil_append] at hf ⊢
      exact parseAux_fuel rest.length rest f rest.length (insertAllN acc .nil) le_rfl hf le_rfl
    | cons k v r => simp [entsH] at hn
  | succ n ih =>
    intro es hn hs d acc rest f hf
    cases es with
    | nil =>
      simp only [serializeEnts, List.nil_append] at hf ⊢
      exact parseAux_fuel rest.length rest f rest.length (insertAllN acc .nil) le_rfl hf le_rfl
    | cons k v r =>
      obtain ⟨hk0, hkS, hvS, hrS⟩ := safeEnts_cons hs
      cases v with
      | leaf w =>
        have hwS : safeStr w = true := hvS
        have hlen : (serializeEnts d (.cons k (.leaf w) r) ++ rest).length
            = 1 + (serializeEnts d r).length + rest.length := by
          simp [serializeEnts, serializeKV]
          omega
        obtain ⟨f2, rfl⟩ : ∃ f2, f = f2 + 1 := ⟨f - 1, by omega⟩
        have hn2 : entsH r ≤ n := by simp [entsH, kvH] at hn; omega
        have hf2 : (serializeEnts d r ++ rest).length ≤ f2 := by
          rw [hlen] at hf; simp; omega
        simp only [serializeEnts, serializeKV, List.cons_append, List.singleton_append,
          parseAux]
        rw [if_neg (by simp [matchBegin_leafLineG, leafLine])]
        simp only [leafLine, matchKV_leafLineG hkS hk0 le_rfl hwS]
        rw [if_neg (by simp [matchFinish_leafLineG, leafLine])]
        simp only [List.append_eq, List.nil_append]
        rw [ih r hn2 hrS d _ rest f2 hf2]
        simp [insertAllN, normKV]
      | node sub =>
        have hsubS : safeEnts sub = true := hvS
        have hn2 : entsH sub ≤ n := by simp [entsH, kvH] at hn; omega
        have hnr : entsH r ≤ n := by simp [entsH, kvH] at hn; omega
        have hlen : (serializeEnts d (.cons k (.node sub) r) ++ rest).length
            = 3 + (serializeEnts (d+1) sub).length + (serializeEnts d r).length
              + rest.length := by
          simp [serializeEnts, serializeKV]
          omega
        obtain ⟨f2, rfl⟩ : ∃ f2, f = f2 + 2 := ⟨f - 2, by omega⟩
        have harr : serializeEnts d (.cons k (.node sub) r) ++ rest
            = nameLine d k :: openLine d :: (serializeEnts (d+1) sub
              ++ (closeLine d :: (serializeEnts d r ++ rest))) := by
          simp [serializeEnts, serializeKV]
        rw [harr]
        have hfsub : (serializeEnts (d+1) sub
            ++ (closeLine d :: (serializeEnts d r ++ rest))).length ≤ f2 := by
          rw [hlen] at hf; simp; omega
        simp only [parseAux]
        rw [if_neg (by simp [matchBegin_nameLine])]
        simp only [matchKV_nameLine hkS, matchName_nameLine hk0]
        rw [if_pos (matchBegin_openLine d)]
        rw [ih sub hn2 hsubS (d+1) .nil (closeLine d :: (serializeEnts d r ++ rest)) f2 hfsub]
        have hclose : parseAux (closeLine d :: (serializeEnts d r ++ rest)).length
            (insertAllN .nil sub) (closeLine d :: (serializeEnts d r ++ rest))
            = (insertAllN .nil sub, serializeEnts d r ++ rest) := by
          simp only [List.length_cons, parseAux]
          rw [if_neg (by simp [matchBegin_closeLine])]
          simp only [matchKV_closeLine, matchName_closeLine]
          rw [if_pos (matchFinish_closeLine d)]
        rw [hclose]
        rw [if_neg (by simp [matchFinish_nameLine])]
        have hfr : (serializeEnts d r ++ rest).length ≤ f2 + 1 := by
          rw [hlen] at hf; simp; omega
        rw [ih r hnr hrS d _ rest (f2 + 1) hfr]
        simp [insertAllN, normKV]

/-- List-style induction over `Ents` (the nested values need no hypothesis). -/
theorem entsInd (P : Ents → Prop) (h0 : P .nil)
    (h1 : ∀ k v r, P r → P (.cons k v r)) : ∀ es, P es :=
  @Ents.rec (fun _ => True) P (fun _ => trivial) (fun _ _ => trivial) h0
    (fun k v r _ hr => h1 k v r hr)

/-- Simultaneous induction over `KV` and `Ents`. -/
theorem kvEntsInd (Q : KV → Prop) (P : Ents → Prop)
    (hleaf : ∀ s, Q (.leaf s)) (hnode : ∀ d, P d → Q (.node d))
    (h0 : P .nil) (h1 : ∀ k v r, Q v → P r → P (.cons k v r)) :
    (∀ v, Q v) ∧ (∀ es, P es) :=
  ⟨fun v => @KV.rec Q P hleaf hnode h0 h1 v,
   fun es => @Ents.rec Q P hleaf hnode h0 h1 es⟩

/-- The result of parsing the serialization of a safe binding list. -/
theorem parseACF_serializeEnts {es : Ents} (hs : safeEnts es = true) (d : Nat) :
    parseACF (serializeEnts d es) = insertAllN .nil es := by
  unfold parseACF
  have h := parse_serializeEnts (entsH es) es le_rfl hs d .nil []
    (serializeEnts d es ++ []).length le_rfl
  simp only [List.append_nil] at h
  rw [h]
  rfl

/-! ## Rebuilding a duplicate-free tree is the identity -/

/-- No key of `es` occurs in `acc`. -/
def keysAbsent : Ents → Ents → Bool
  | .nil, _ => true
  | .cons k _ r, acc => keyAbsent k acc && keysAbsent r acc

theorem entsAppend_assoc (a b c : Ents) :
    entsAppend (entsAppend a b) c = entsAppend a (entsAppend b c) := by
  induction a using entsInd with
  | h0 => rfl
  | h1 k v r ih => simp [entsAppend, ih]

theorem keyAbsent_append (x : Str) (a b : Ents) :
    keyAbsent x (entsAppend a b) = (keyAbsent x a && keyAbsent x b) := by
  induction a using entsInd with
  | h0 => rfl
  | h1 k v r ih =>
    by_cases h : k = x <;> simp [entsAppend, keyAbsent, h, ih]

theorem dictInsert_absent {k : Str} {acc : Ents} (h : keyAbsent k acc = true) (v : KV) :
    dictInsert k v acc = entsAppend acc (.cons k v .nil) := by
  induction acc using entsInd with
  | h0 => rfl
  | h1 k2 v2 r ih =>
    simp only [keyAbsent] at h
    by_cases h2 : k2 = k
    · rw [h2] at h; simp at h
    · simp only [dictInsert, entsAppend, if_neg h2]
      rw [ih (by simpa [h2] using h)]

theorem keysAbsent_nil (es : Ents) : keysAbsent es .nil = true := by
  induction es using entsInd with
  | h0 => rfl
  | h1 k v r ih => simp [keysAbsent, keyAbsent, ih]

theorem nodupEnts_cons {k : Str} {v : KV} {r : Ents} (h : nodupEnts (.cons k v r) = true) :
    keyAbsent k r = true ∧ nodupKV v = true ∧ nodupEnts r = true := by
  simp only [nodupEnts, Bool.and_eq_true] at h
  tauto

theorem keysAbsent_extend {r acc : Ents} {k : Str} (v : KV)
    (h1 : keysAbsent r acc = true) (h2 : keyAbsent k r = true) :
    keysAbsent r (entsAppend acc (.cons k v .nil)) = true := by
  induction r using entsInd with
  | h0 => rfl
  | h1 x w r2 ih =>
    simp only [keysAbsent, Bool.and_eq_true] at h1 ⊢
    simp only [keyAbsent] at h2
    by_cases hx : x = k
    · rw [hx] at h2
      simp at h2
    · have hkx : ¬k = x := fun he => hx he.symm
      constructor
      · rw [keyAbsent_append]
        simp [h1.1, keyAbsent, hkx]
      · exact ih h1.2 (by simpa [hx] using h2)

theorem entsAppend_nil (a : Ents) : entsAppend a .nil = a := by
  induction a using entsInd with
  | h0 => rfl
  | h1 k v r ih => simp [entsAppend, ih]

theorem insertAllN_nodup : ∀ (n : Nat) (es : Ents), entsH es ≤ n →
    nodupEnts es = true → ∀ acc, keysAbsent es acc = true →
    insertAllN acc es = entsAppend acc es := by
  intro n
  induction n with
  | zero =>
    intro es hn _ acc _
    cases es with
    | nil => simp [insertAllN, entsAppend_nil]
    | cons k v r => simp [entsH] at hn
  | succ n ih =>
    intro es hn hnd acc hab
    cases es with
    | nil => simp [insertAllN, entsAppend_nil]
    | cons k v r =>
      obtain ⟨hkr, hvnd, hrnd⟩ := nodupEnts_cons hnd
      simp only [keysAbsent, Bool.and_eq_true] at hab
      have hnv : normKV v = v := by
        cases v with
        | leaf w => rfl
        | node sub =>
          have hsub : entsH sub ≤ n := by simp [entsH, kvH] at hn; omega
          simp only [normKV]
          rw [ih sub hsub hvnd .nil (keysAbsent_nil sub)]
          rfl
      simp only [insertAllN, hnv]
      rw [dictInsert_absent hab.1 v]
      rw [ih r (by simp [entsH] at hn; omega) hrnd _
        (keysAbsent_extend v hab.2 hkr)]
      rw [entsAppend_assoc]
      rfl

/-! ## Lookup after rebuilding: the last binding of a key wins -/

theorem dictLookup_insert (k k2 : Str) (w : KV) (acc : Ents) :
    dictLookup k (dictInsert k2 w acc) = if k2 = k then some w else dictLookup k acc := by
  induction acc using entsInd with
  | h0 => simp [dictInsert, dictLookup]
  | h1 x v r ih =>
    by_cases hx : x = k2
    · subst hx
      by_cases hk : x = k <;> simp [dictInsert, dictLookup, hk]
    · have hx2 : ¬k2 = x := fun h => hx h.symm
      by_cases hk : x = k
      · subst hk
        simp [dictInsert, dictLookup, hx, hx2]
      · simp [dictInsert, dictLookup, hx, hk, ih]

theorem dictLookup_insertAllN (k : Str) : ∀ (es : Ents) (acc : Ents),
    dictLookup k (insertAllN acc es)
      = match lastAssoc k es with
        | some v => some (normKV v)
        | none => dictLookup k acc := by
  intro es
  induction es using entsInd with
  | h0 => intro acc; rfl
  | h1 k2 v r ih =>
    intro acc
    simp only [insertAllN, lastAssoc]
    rw [ih]
    cases h : lastAssoc k r with
    | some w => rfl
    | none =>
      simp only [dictLookup_insert]
      by_cases hk : k2 = k <;> simp [hk]

/-! ## Unrecognized lines are dropped wherever they occur -/

/-- A line matched by at least one of the four regexes. -/
def lineRecognized (l : Str) : Bool :=
  matchBegin l || (matchKV l).isSome || (matchName l).isSome || matchFinish l

theorem isSome_false_eq_none {α : Type} {o : Option α} (h : o.isSome = false) : o = none := by
  cases o with
  | none => rfl
  | some x => simp at h

theorem lineRecognized_spec {l : Str} (h : lineRecognized l = false) :
    matchBegin l = false ∧ matchKV l = none ∧ matchName l = none ∧ matchFinish l = false := by
  simp only [lineRecognized, Bool.or_eq_false_iff] at h
  exact ⟨h.1.1.1, isSome_false_eq_none h.1.1.2, isSome_false_eq_none h.1.2, h.2⟩

theorem parseAux_unrecognized {l : Str} (h : lineRecognized l = false)
    (f : Nat) (acc : Ents) (post : List Str) :
    parseAux (f + 1) acc (l :: post) = parseAux f acc post := by
  obtain ⟨hb, hkv, hnm, hfin⟩ := lineRecognized_spec h
  simp only [parseAux, hb, hkv, hnm, hfin, Bool.false_eq_true, if_false]

theorem parseAux_skip_insert : ∀ (n : Nat) (l : Str), lineRecognized l = false →
    ∀ (pre post : List Str) (acc : Ents) (f g : Nat),
    (pre ++ l :: post).length ≤ n → (pre ++ l :: post).length ≤ f →
    (pre ++ post).length ≤ g →
    (parseAux f acc (pre ++ l :: post)).1 = (parseAux g acc (pre ++ post)).1 ∧
    ((parseAux f acc (pre ++ l :: post)).2 = (parseAux g acc (pre ++ post)).2 ∨
     ∃ mid, (parseAux f acc (pre ++ l :: post)).2 = mid ++ l :: post ∧
            (parseAux g acc (pre ++ post)).2 = mid ++ post) := by
  intro n
  induction n with
  | zero =>
    intro l _ pre post acc f g hn _ _
    exact absurd hn (by simp)
  | succ n ih =>
    intro l hl pre post acc f g hn hf hg
    cases pre with
    | nil =>
      obtain ⟨f2, rfl⟩ : ∃ f2, f = f2 + 1 := ⟨f - 1, by simp at hf; omega⟩
      simp only [List.nil_append]
      rw [parseAux_unrecognized hl f2 acc post]
      rw [parseAux_fuel post.length post f2 g acc le_rfl
        (by simp at hf; omega) (by simpa using hg)]
      exact ⟨rfl, Or.inl rfl⟩
    | cons p pre2 =>
      obtain ⟨f2, rfl⟩ : ∃ f2, f = f2 + 1 := ⟨f - 1, by simp at hf; omega⟩
      obtain ⟨g2, rfl⟩ : ∃ g2, g = g2 + 1 := ⟨g - 1, by simp at hg; omega⟩
      have hn2 : (pre2 ++ l :: post).length ≤ n := by simp at hn ⊢; omega
      have hf2 : (pre2 ++ l :: post).length ≤ f2 := by simp at hf ⊢; omega
      have hg2 : (pre2 ++ post).length ≤ g2 := by simp at hg ⊢; omega
      simp only [List.cons_append, parseAux, List.append_eq]
      by_cases hpb : matchBegin p
      · simp only [hpb, if_true]
        exact ih l hl pre2 post acc f2 g2 hn2 hf2 hg2
      · simp only [hpb, Bool.false_eq_true, if_false]
        cases hpkv : matchKV p with
        | some pr =>
          simp only [matchFinish_of_matchKV hpkv, Bool.false_eq_true, if_false]
          exact ih l hl pre2 post _ f2 g2 hn2 hf2 hg2
        | none =>
          cases hpnm : matchName p with
          | some k =>
            simp only [matchFinish_of_matchName hpnm, Bool.false_eq_true, if_false]
            obtain ⟨h1, h2⟩ := ih l hl pre2 post .nil f2 g2 hn2 hf2 hg2
            rw [h1]
            cases h2 with
            | inl heq =>
              rw [heq]
              have hlen2 : (parseAux g2 Ents.nil (pre2 ++ post)).2.length ≤ g2 :=
                le_trans (parseAux_snd_length g2 _ _) hg2
              have hlen1 : (parseAux g2 Ents.nil (pre2 ++ post)).2.length ≤ f2 := by
                rw [← heq]
                exact le_trans (parseAux_snd_length f2 _ _) hf2
              rw [parseAux_fuel (parseAux g2 Ents.nil (pre2 ++ post)).2.length _ f2 g2 _
                le_rfl hlen1 hlen2]
              exact ⟨rfl, Or.inl rfl⟩
            | inr hex =>
              obtain ⟨mid, hm1, hm2⟩ := hex
              rw [hm1, hm2]
              have hb1 : (mid ++ l :: post).length ≤ n := by
                rw [← hm1]
                exact le_trans (parseAux_snd_length f2 _ _) hn2
              have hb2 : (mid ++ l :: post).length ≤ f2 := by
                rw [← hm1]
                exact le_trans (parseAux_snd_length f2 _ _) hf2
              have hb3 : (mid ++ post).length ≤ g2 := by
                rw [← hm2]
                exact le_trans (parseAux_snd_length g2 _ _) hg2
              exact ih l hl mid post _ f2 g2 hb1 hb2 hb3
          | none =>
            by_cases hpf : matchFinish p
            · simp only [hpf, if_true]
              refine ⟨by simp, Or.inr ⟨pre2, by simp, by simp⟩⟩
            · simp only [hpf, Bool.false_eq_true, if_false]
              exact ih l hl pre2 post acc f2 g2 hn2 hf2 hg2

/-! ## Resolver lemmas -/

/-- The loop of `_locate_library_folder` passes this entry without matching
and without raising: a leaf, a dict without `apps`, or a dict whose `apps`
dict does not contain the game id. -/
def entrySkipsB (gid : Str) : Str × KV → Bool
  | (_, .leaf _) => true
  | (_, .node fields) =>
    match dictLookup (cs "apps") fields with
    | none => true
    | some (.leaf _) => false
    | some (.node apps) => (dictLookup gid apps).isNone

/-- The loop of `_locate_library_folder` matches this entry: a dict whose
`apps` dict contains the game id as a key. -/
def entryMatchesB (gid : Str) : Str × KV → Bool
  | (_, .leaf _) => false
  | (_, .node fields) =>
    match dictLookup (cs "apps") fields with
    | none => false
    | some (.leaf _) => false
    | some (.node apps) => (dictLookup gid apps).isSome

theorem locateLoop_skips {gid : Str} : ∀ {lf : Ents},
    entsAll (entrySkipsB gid) lf = true → locateLoop gid lf = .ok none := by
  intro lf
  induction lf using entsInd with
  | h0 => intro _; rfl
  | h1 k v r ih =>
    intro h
    simp only [entsAll, Bool.and_eq_true] at h
    obtain ⟨he, hr⟩ := h
    cases v with
    | leaf s => simpa [locateLoop] using ih hr
    | node fields =>
      simp only [entrySkipsB] at he
      cases happs : dictLookup (cs "apps") fields with
      | none => rw [happs] at he; simpa [locateLoop, happs] using ih hr
      | some a =>
        cases a with
        | leaf s => rw [happs] at he; simp at he
        | node apps =>
          rw [happs] at he
          simp only [Option.isNone_iff_eq_none] at he
          simpa [locateLoop, happs, he] using ih hr

theorem locateLoop_first {gid : Str} : ∀ {pre : Ents},
    entsAll (entrySkipsB gid) pre = true →
    ∀ {k0 : Str} {fields apps : Ents} {post : Ents},
    dictLookup (cs "apps") fields = some (.node apps) →
    (dictLookup gid apps).isSome = true →
    locateLoop gid (entsAppend pre (.cons k0 (.node fields) post)) = .ok (some k0) := by
  intro pre
  induction pre using entsInd with
  | h0 =>
    intro _ k0 fields apps post happs hg
    simp [entsAppend, locateLoop, happs, hg]
  | h1 k v r ih =>
    intro h k0 fields apps post happs hg
    simp only [entsAll, Bool.and_eq_true] at h
    obtain ⟨he, hr⟩ := h
    cases v with
    | leaf s => simpa [entsAppend, locateLoop] using ih hr happs hg
    | node fields2 =>
      simp only [entrySkipsB] at he
      cases ha2 : dictLookup (cs "apps") fields2 with
      | none => rw [ha2] at he; simpa [entsAppend, locateLoop, ha2] using ih hr happs hg
      | some a =>
        cases a with
        | leaf s => rw [ha2] at he; simp at he
        | node apps2 =>
          rw [ha2] at he
          simp only [Option.isNone_iff_eq_none] at he
          simpa [entsAppend, locateLoop, ha2, he] using ih hr happs hg

/-! ## String helpers for the version-marker derivation -/

theorem splitDash_no_dash {b : Str} (h : '-' ∉ b) : splitDash b = [b] := by
  induction b with
  | nil => rfl
  | cons c b ih =>
    have hc : ¬c = '-' := fun he => h (he ▸ List.mem_cons_self c b)
    have hb : '-' ∉ b := fun he => h (List.mem_cons_of_mem c he)
    simp [splitDash, hc, ih hb]

theorem splitDash_pair {a b : Str} (ha : '-' ∉ a) (hb : '-' ∉ b) :
    splitDash (a ++ '-' :: b) = [a, b] := by
  induction a with
  | nil => simp [splitDash, splitDash_no_dash hb]
  | cons c a2 ih =>
    have hc : ¬c = '-' := fun he => ha (he ▸ List.mem_cons_self c a2)
    have ha2 : '-' ∉ a2 := fun he => ha (List.mem_cons_of_mem c he)
    simp [splitDash, hc, ih ha2]

theorem dropWhile_all_false {p : Char → Bool} {l : Str}
    (h : ∀ c ∈ l, p c = false) : l.dropWhile p = l := by
  cases l with
  | nil => rfl
  | cons c t => simp [List.dropWhile_cons, h c (List.mem_cons_self c t)]

theorem pyStrip_id {l : Str} (h : ∀ c ∈ l, isPySpace c = false) : pyStrip l = l := by
  unfold pyStrip
  rw [dropWhile_all_false h]
  rw [dropWhile_all_false (fun c hc => h c (List.mem_reverse.mp hc))]
  exact List.reverse_reverse l

theorem takeWhile_until_newline {x : Str} (t : Str) (h : ∀ c ∈ x, c ≠ '\n') :
    (x ++ '\n' :: t).takeWhile (fun c => c ≠ '\n') = x := by
  induction x with
  | nil => simp [List.takeWhile_cons]
  | cons c x2 ih =>
    have hc := h c (List.mem_cons_self c x2)
    have ih2 := ih (fun c2 hc2 => h c2 (List.mem_cons_of_mem c hc2))
    simp [List.takeWhile_cons, hc]
    simpa using ih2

/-! ## Environment merge lookup -/

/-- Lookup in a string-to-string association list (Python dict access). -/
def envLookup (k : Str) : List (Str × Str) → Option Str
  | [] => none
  | (k2, v) :: r => if k2 = k then some v else envLookup k r

theorem envLookup_map_replace (k v : Str) : ∀ (os : List (Str × Str)),
    os.any (fun q => q.1 = k) = true →
    envLookup k (os.map (fun q => if q.1 = (k, v).1 then (k, v) else q)) = some v := by
  intro os
  induction os with
  | nil => intro h; simp at h
  | cons e r ih =>
    intro h
    obtain ⟨e1, e2⟩ := e
    by_cases he : e1 = k
    · subst he
      simp only [List.map_cons]
      simp [envLookup]
    · simp only [List.any_cons, Bool.or_eq_true, decide_eq_true_eq] at h
      have hr : r.any (fun q => q.1 = k) = true := by
        rcases h with h | h
        · exact absurd h he
        · simpa using h
      simp only [List.map_cons]
      rw [if_neg (by simpa using he)]
      simp [envLookup, he, ih hr]

theorem envLookup_append_last (k v : Str) : ∀ (os : List (Str × Str)),
    os.any (fun q => q.1 = k) = false →
    envLookup k (os ++ [(k, v)]) = some v := by
  intro os
  induction os with
  | nil => simp [envLookup]
  | cons e r ih =>
    intro h
    simp only [List.any_cons, Bool.or_eq_false_iff, decide_eq_false_iff_not] at h
    simp [envLookup, h.1, ih h.2]

theorem envLookup_merged (osEnviron : List (Str × Str)) (k v : Str) :
    envLookup k (mergedEnviron osEnviron [(k, v)]) = some v := by
  unfold mergedEnviron
  simp only [List.foldl_cons, List.foldl_nil]
  by_cases h : osEnviron.any (fun q => q.1 = k)
  · simp only [h, if_true]
    exact envLookup_map_replace k v osEnviron h
  · have hfalse : osEnviron.any (fun q => q.1 = k) = false := by
      cases hx : osEnviron.any (fun q => q.1 = k) with
      | false => rfl
      | true => exact absurd hx h
    simp only [hfalse, Bool.false_eq_true, if_false]
    exact envLookup_append_last k v osEnviron hfalse

/-! ## The parser never retains duplicate keys -/

theorem keyAbsent_insert {x k : Str} {v : KV} {r : Ents} (hx : ¬k = x)
    (h : keyAbsent x r = true) : keyAbsent x (dictInsert k v r) = true := by
  induction r using entsInd with
  | h0 => simp [dictInsert, keyAbsent, hx]
  | h1 k2 v2 r2 ih =>
    simp only [keyAbsent] at h
    by_cases h2 : k2 = x
    · rw [h2] at h; simp at h
    · by_cases h3 : k2 = k
      · simp [dictInsert, h3, keyAbsent, hx, h2]
        simpa [h2] using h
      · simp only [dictInsert, if_neg h3, keyAbsent, if_neg h2]
        exact ih (by simpa [h2] using h)

theorem nodup_insert {k : Str} {v : KV} {acc : Ents} (hv : nodupKV v = true)
    (h : nodupEnts acc = true) : nodupEnts (dictInsert k v acc) = true := by
  induction acc using entsInd with
  | h0 => simp [dictInsert, nodupEnts, keyAbsent, hv]
  | h1 k2 v2 r ih =>
    obtain ⟨hab, hv2, hr⟩ := nodupEnts_cons h
    by_cases h2 : k2 = k
    · subst h2
      simp [dictInsert, nodupEnts, hab, hv, hr]
    · have hsym : ¬k = k2 := fun he => h2 he.symm
      simp only [dictInsert, if_neg h2, nodupEnts, Bool.and_eq_true]
      exact ⟨⟨keyAbsent_insert hsym hab, hv2⟩, ih hr⟩

theorem parseAux_nodup (f : Nat) : ∀ (acc : Ents) (ls : List Str),
    nodupEnts acc = true → nodupEnts (parseAux f acc ls).1 = true := by
  induction f with
  | zero => intro acc ls h; cases ls <;> simpa [parseAux]
  | succ f ih =>
    intro acc ls h
    cases ls with
    | nil => simpa [parseAux]
    | cons l rest =>
      simp only [parseAux]
      split
      · exact ih acc rest h
      · split
        · split
          · exact nodup_insert rfl h
          · exact ih _ rest (nodup_insert rfl h)
        · split
          · have hinner : nodupEnts (parseAux f Ents.nil rest).1 = true :=
              ih Ents.nil rest rfl
            split
            · exact nodup_insert hinner h
            · exact ih _ _ (nodup_insert hinner h)
          · split
            · exact h
            · exact ih acc rest h

theorem parseACF_nodup (ls : List Str) : nodupEnts (parseACF ls) = true :=
  parseAux_nodup ls.length .nil ls rfl

/-! ## Wrapper lemmas about the resolver -/

theorem locate_none_of_skips {acf lf : Ents} {gid : Str}
    (hlf : dictLookup (cs "libraryfolders") acf = some (.node lf))
    (hall : entsAll (entrySkipsB gid) lf = true) :
    locate_library_folder acf gid = .ok none := by
  unfold locate_library_folder
  rw [hlf]
  simp only [locateLoop_skips hall]

theorem locate_first_of {acf : Ents} {gid : Str} {pre post fields apps : Ents} {k0 p0 : Str}
    (hlf : dictLookup (cs "libraryfolders") acf
      = some (.node (entsAppend pre (.cons k0 (.node fields) post))))
    (hpre : entsAll (entrySkipsB gid) pre = true)
    (happs : dictLookup (cs "apps") fields = some (.node apps))
    (hgid : (dictLookup gid apps).isSome = true)
    (hk0 : dictLookup k0 (entsAppend pre (.cons k0 (.node fields) post))
      = some (.node fields))
    (hpath : dictLookup (cs "path") fields = some (.leaf p0)) :
    locate_library_folder acf gid = .ok (some p0) := by
  unfold locate_library_folder
  rw [hlf]
  simp only [locateLoop_first hpre happs hgid, hk0, hpath]

theorem find_none_of_no_version {acf : Ents} {compat : Str} {w : World}
    (h : w.versionFileAt (pathJoin compat (cs "version")) = none) :
    find_proton_dir acf compat w = .ok none := by
  unfold find_proton_dir
  rw [h]

theorem init_attr_of_locate_none {w : World}
    (h : locate_library_folder (initAcf w) w.gid = .ok none) :
    protonHackInit w = .error .attrError := by
  simp [protonHackInit, h]

theorem init_attr_of_find_none {w : World} {p0 : Str}
    (hloc : locate_library_folder (initAcf w) w.gid = .ok (some p0))
    (hfind : find_proton_dir (initAcf w)
      (pathJoin p0 (pathNorm (cs "steamapps/compatdata/" ++ w.gid ++ ['/']))) w
      = .ok none) :
    protonHackInit w = .error .attrError := by
  simp only [protonHackInit, hloc]
  rw [hfind]

theorem parse_roundtrip_id {es : Ents} (d : Nat) (hs : safeEnts es = true)
    (hnd : nodupEnts es = true) : parseACF (serializeEnts d es) = es := by
  rw [parseACF_serializeEnts hs d]
  rw [insertAllN_nodup (entsH es) es le_rfl hnd .nil (keysAbsent_nil es)]
  rfl

theorem parseACF_insert_unrecognized (pre post : List Str) (l : Str)
    (h : lineRecognized l = false) :
    parseACF (pre ++ l :: post) = parseACF (pre ++ post) := by
  unfold parseACF
  exact (parseAux_skip_insert (pre ++ l :: post).length l h pre post .nil _ _
    le_rfl le_rfl le_rfl).1

/-! # Claim theorems -/

/-- C9: `prefix_proton_cmd` returns exactly the runtime binary path followed
by the literal `runinprefix` followed by the caller's command sequence in
order; the input sequence reappears unchanged as the suffix, and the
function is pure (a plain list construction, no validation of `command`). -/
theorem c9_prefix_proton_cmd (proton_bin : Str) (command : List Str) :
    prefix_proton_cmd proton_bin command = proton_bin :: cs "runinprefix" :: command ∧
    (prefix_proton_cmd proton_bin command).drop 2 = command :=
  ⟨rfl, rfl⟩

/-- C6: `_prepare_env` produces the single-entry mapping
`STEAM_COMPAT_DATA_PATH ↦ compat_data`, and merging it over the inherited
environment would contain that key — but when `env` is omitted,
`run_in_proton_prefix` binds `env = dict(os.environ).update(self.env)`,
which is `None` because `dict.update` returns `None`; so the launcher is
handed no environment mapping at all (it inherits `os.environ` unchanged),
contradicting the claim. -/
theorem c6_env_update_returns_none (osEnviron : List (Str × Str)) (compat_data : Str) :
    run_in_proton_prefix_env osEnviron (prepare_env compat_data) none = none ∧
    envLookup (cs "STEAM_COMPAT_DATA_PATH")
      (mergedEnviron osEnviron (prepare_env compat_data)) = some compat_data :=
  ⟨rfl, envLookup_merged osEnviron (cs "STEAM_COMPAT_DATA_PATH") compat_data⟩

/-- C8: on a library-folder document none of whose entries matches the game
id (each entry is a leaf, lacks `apps`, or has an `apps` object without the
id), `_locate_library_folder` returns the explicit unresolved result
`None` and raises nothing. -/
theorem c8_locate_not_found (acf lf : Ents) (gid : Str)
    (hlf : dictLookup (cs "libraryfolders") acf = some (.node lf))
    (hall : entsAll (entrySkipsB gid) lf = true) :
    locate_library_folder acf gid = .ok none :=
  locate_none_of_skips hlf hall

/-- A concrete library-folder entry list whose single entry's `apps` object
does not contain the target id `252950`. -/
def lfC8 : Ents :=
  Ents.cons (cs "0") (.node (Ents.cons (cs "path") (.leaf (cs "/mnt/a"))
    (Ents.cons (cs "apps") (.node (Ents.cons (cs "10") (.leaf (cs "x")) .nil)) .nil))) .nil

/-- The corresponding parsed `libraryfolders.vdf` document. -/
def acfC8 : Ents := Ents.cons (cs "libraryfolders") (.node lfC8) .nil

/-- Witness for C8: a concrete one-entry document whose `apps` object does
not contain the target id. -/
theorem c8_witness :
    entsAll (entrySkipsB (cs "252950")) lfC8 = true ∧
    locate_library_folder acfC8 (cs "252950") = .ok none :=
  ⟨by decide, c8_locate_not_found acfC8 lfC8 (cs "252950") (by decide) (by decide)⟩

/-- C3: when the library-folder document contains a first matching entry
(every earlier entry passes without matching) and at least one further
matching entry later, `_locate_library_folder` returns the `path` value of
the first matching entry in document order.  The function is pure, so the
result is the same on every run. -/
theorem c3_locate_first_match (acf : Ents) (gid : Str) (pre post fields apps : Ents)
    (k0 p0 : Str)
    (hlf : dictLookup (cs "libraryfolders") acf
      = some (.node (entsAppend pre (.cons k0 (.node fields) post))))
    (hpre : entsAll (entrySkipsB gid) pre = true)
    (happs : dictLookup (cs "apps") fields = some (.node apps))
    (hgid : (dictLookup gid apps).isSome = true)
    (hk0 : dictLookup k0 (entsAppend pre (.cons k0 (.node fields) post))
      = some (.node fields))
    (hpath : dictLookup (cs "path") fields = some (.leaf p0))
    (hsecond : entsAny (entryMatchesB gid) post = true) :
    locate_library_folder acf gid = .ok (some p0) :=
  locate_first_of hlf hpre happs hgid hk0 hpath

/-- First library entry for the C3 witness: contains the target id. -/
def fieldsC3a : Ents :=
  Ents.cons (cs "path") (.leaf (cs "/mnt/a"))
    (Ents.cons (cs "apps") (.node (Ents.cons (cs "252950") (.leaf (cs "1")) .nil)) .nil)

/-- Second library entry for the C3 witness: also contains the target id. -/
def fieldsC3b : Ents :=
  Ents.cons (cs "path") (.leaf (cs "/mnt/b"))
    (Ents.cons (cs "apps") (.node (Ents.cons (cs "252950") (.leaf (cs "2")) .nil)) .nil)

/-- The later entries following the first match in the C3 witness. -/
def postC3 : Ents := Ents.cons (cs "1") (.node fieldsC3b) .nil

/-- A parsed document with two entries both listing the target id. -/
def acfC3 : Ents :=
  Ents.cons (cs "libraryfolders")
    (.node (Ents.cons (cs "0") (.node fieldsC3a) postC3)) .nil

/-- Witness for C3: with two matching entries, the first one's path wins. -/
theorem c3_witness :
    entsAny (entryMatchesB (cs "252950")) postC3 = true ∧
    locate_library_folder acfC3 (cs "252950") = .ok (some (cs "/mnt/a")) :=
  ⟨by decide, c3_locate_first_match acfC3 (cs "252950") .nil postC3 fieldsC3a
    (Ents.cons (cs "252950") (.leaf (cs "1")) .nil) (cs "0") (cs "/mnt/a")
    (by decide) (by decide) (by decide) (by decide) (by decide) (by decide) (by decide)⟩

/-- C10: in any document produced by the serialization grammar, a key with
several bindings at the same nesting level (key-value lines or key/object
lines) ends up bound to the value of its last occurrence in document
order, and the parsed level retains no duplicate entry for any key. -/
theorem c10_last_wins (es : Ents) (d : Nat) (k : Str) (v : KV)
    (hs : safeEnts es = true) (hlast : lastAssoc k es = some v) :
    dictLookup k (parseACF (serializeEnts d es)) = some (normKV v) ∧
    nodupEnts (parseACF (serializeEnts d es)) = true := by
  constructor
  · rw [parseACF_serializeEnts hs d, dictLookup_insertAllN]
    rw [hlast]
  · exact parseACF_nodup _

/-- Entry list with three key-value bindings, the first and last sharing
the key `k`. -/
def esC10 : Ents :=
  Ents.cons (cs "k") (.leaf (cs "v1"))
    (Ents.cons (cs "x") (.leaf (cs "y"))
      (Ents.cons (cs "k") (.leaf (cs "v2")) .nil))

/-- Witness for C10: the duplicated key `k` maps to the later value `v2`. -/
theorem c10_witness :
    lastAssoc (cs "k") esC10 = some (.leaf (cs "v2")) ∧
    dictLookup (cs "k") (parseACF (serializeEnts 0 esC10)) = some (normKV (.leaf (cs "v2"))) ∧
    nodupEnts (parseACF (serializeEnts 0 esC10)) = true :=
  ⟨by decide, (c10_last_wins esC10 0 (cs "k") (.leaf (cs "v2")) (by decide) (by decide)).1,
    (c10_last_wins esC10 0 (cs "k") (.leaf (cs "v2")) (by decide) (by decide)).2⟩

/-- C5 counterexample: the claim quantifies over every `KVNode` tree, but a
leaf whose value contains the characters quote-tab-quote serializes to the
line `"k"<tab>"x"<tab>"y"`, which the greedy `_KEY_VALUE_RE` regroups as
key `k"<tab>"x` with value `y`; the parse of the serialization is a
different tree, so the round trip fails. -/
theorem c5_counterexample :
    parseACF (serializeEnts 0 (Ents.cons (cs "k") (.leaf (cs "x\"\t\"y")) .nil))
      = Ents.cons (cs "k\"\t\"x") (.leaf (cs "y")) .nil ∧
    parseACF (serializeEnts 0 (Ents.cons (cs "k") (.leaf (cs "x\"\t\"y")) .nil))
      ≠ Ents.cons (cs "k") (.leaf (cs "x\"\t\"y")) .nil :=
  ⟨rfl, by decide⟩

/-- C5 amended: for every tree (of any depth and sibling count, so in
particular depth up to 5 and up to 20 siblings) whose keys are nonempty,
whose keys and values contain no quote, tab, or newline characters, and
whose sibling keys are distinct at every level, serializing by the grammar
of the spec and parsing with `ACFFile._parse` reproduces the tree exactly:
same keys, same nesting, same leaf values. -/
theorem c5_roundtrip (es : Ents) (d : Nat) (hs : safeEnts es = true)
    (hnd : nodupEnts es = true) : parseACF (serializeEnts d es) = es :=
  parse_roundtrip_id d hs hnd

/-- A depth-3 tree with nested objects and a second top-level binding. -/
def treeC5 : Ents :=
  Ents.cons (cs "a")
    (.node (Ents.cons (cs "b")
      (.node (Ents.cons (cs "c") (.leaf (cs "v"))
        (Ents.cons (cs "c2") (.leaf (cs "")) .nil))) .nil))
    (Ents.cons (cs "d") (.leaf (cs "e")) .nil)

/-- Witness for the amended C5 on a concrete nested tree. -/
theorem c5_witness :
    safeEnts treeC5 = true ∧ parseACF (serializeEnts 0 treeC5) = treeC5 :=
  ⟨by decide, c5_roundtrip treeC5 0 (by decide) (by decide)⟩

/-- C7 counterexample: the separator in `_KEY_VALUE_RE` is `\t+`, so a
single space between the quoted key and quoted value is not accepted: on
the line `"a" "b"` the key-value regex fails; instead the greedy
`_OBJECT_NAME_RE` matches the whole line, so the parser records the key
`a" "b` mapped to an empty nested object and no leaf `a ↦ b` at all. -/
theorem c7_counterexample :
    parseACF [cs "\"a\" \"b\""] = Ents.cons (cs "a\" \"b") (.node .nil) .nil ∧
    dictLookup (cs "a") (parseACF [cs "\"a\" \"b\""]) = none :=
  ⟨rfl, rfl⟩

/-- C7 amended: a line of leading tabs, a quoted nonempty grammar-safe key,
one or more tabs (spaces are not accepted), and a quoted grammar-safe value
— possibly empty — parses to exactly the one leaf entry key ↦ value. -/
theorem c7_key_value_line (d m : Nat) (k v : Str) (hm : 1 ≤ m)
    (hk : safeStr k = true) (hk0 : k ≠ []) (hv : safeStr v = true) :
    parseACF [leafLineG d k m v] = Ents.cons k (.leaf v) .nil := by
  unfold parseACF
  have h1 : matchKV (leafLineG d k m v) = some (k, v) := matchKV_leafLineG hk hk0 hm hv
  simp only [List.length_cons, List.length_nil, parseAux, matchBegin_leafLineG,
    Bool.false_eq_true, if_false, h1, matchFinish_leafLineG]
  rfl

/-- Witness for the amended C7: two leading tabs, two separator tabs, and
an empty value. -/
theorem c7_witness :
    1 ≤ 2 ∧ parseACF [leafLineG 2 (cs "key") 2 []] = Ents.cons (cs "key") (.leaf []) .nil :=
  ⟨by decide, c7_key_value_line 2 2 (cs "key") [] (by decide) (by decide) (by decide) (by decide)⟩

/-- C4: `ACFFile._parse` is a total function (the embedding returns a tree
on every input, mirroring the Python code, which raises on no line): a line
matched by none of the four regexes — blank lines, whitespace-only lines,
and any otherwise unrecognized line — is silently dropped wherever it
occurs without changing the parse, and a document whose closing braces are
missing at the end still parses to the tree of its well-formed prefix
(end of input simply returns what was accumulated). -/
theorem c4_permissive_parse :
    (∀ (pre : List Str) (l : Str) (post : List Str), lineRecognized l = false →
      parseACF (pre ++ l :: post) = parseACF (pre ++ post)) ∧
    parseACF [cs "\"a\"", ['{'], cs "\"k\"\t\"v\""]
      = Ents.cons (cs "a") (.node (Ents.cons (cs "k") (.leaf (cs "v")) .nil)) .nil :=
  ⟨fun pre l post h => parseACF_insert_unrecognized pre post l h, rfl⟩

/-- The well-formed tail of the C4 witness document. -/
def docC4 : List Str := [cs "\"k\"\t\"v\""]

/-- Witness for C4: a whitespace-only line is unrecognized and inserting it
at the front of a document leaves the parse unchanged. -/
theorem c4_witness :
    lineRecognized (cs "  ") = false ∧
    parseACF ([] ++ cs "  " :: docC4) = parseACF ([] ++ docC4) :=
  ⟨by decide, c4_permissive_parse.1 [] (cs "  ") docC4 (by decide)⟩

/-- C2 counterexample: `_find_proton_dir` runs
`proton_version, _ = version.split('-')` with no maxsplit; on the marker
content `7.0-6-rc1` the split yields three parts and the tuple unpacking
raises `ValueError` instead of deriving `Proton 7.0`. -/
theorem c2_counterexample :
    derivedRuntimeDirName (cs "7.0-6-rc1\n") = .error .valueError := rfl

/-- C2 amended: when the stripped first line of the marker file contains
exactly one `-` (both parts free of `-` and of whitespace), the derived
runtime directory name is `"Proton "` followed by the part before the `-`;
in particular `7.0-6` yields `Proton 7.0`.  When the suffix contains
further `-` characters the unpacking raises `ValueError` instead
(see the counterexample). -/
theorem c2_version_split (a b tail : Str)
    (ha : ∀ c ∈ a, isPySpace c = false ∧ c ≠ '-')
    (hb : ∀ c ∈ b, isPySpace c = false ∧ c ≠ '-') :
    derivedRuntimeDirName (a ++ '-' :: (b ++ '\n' :: tail)) = .ok (cs "Proton " ++ a) := by
  unfold derivedRuntimeDirName
  have hnl : ∀ c ∈ a ++ '-' :: b, c ≠ '\n' := by
    intro c hc he
    subst he
    rcases List.mem_append.mp hc with h | h
    · have := (ha _ h).1; simp [isPySpace] at this
    · rcases List.mem_cons.mp h with h | h
      · exact absurd h (by decide)
      · have := (hb _ h).1; simp [isPySpace] at this
  have hline : readFirstLine (a ++ '-' :: (b ++ '\n' :: tail)) = a ++ '-' :: b := by
    unfold readFirstLine
    have harr : a ++ '-' :: (b ++ '\n' :: tail) = (a ++ '-' :: b) ++ '\n' :: tail := by
      simp
    rw [harr]
    exact takeWhile_until_newline tail hnl
  rw [hline]
  have hstrip : pyStrip (a ++ '-' :: b) = a ++ '-' :: b := by
    apply pyStrip_id
    intro c hc
    rcases List.mem_append.mp hc with h | h
    · exact (ha c h).1
    · rcases List.mem_cons.mp h with h | h
      · subst h; decide
      · exact (hb c h).1
  rw [hstrip]
  unfold protonDirOfVersion
  rw [splitDash_pair (fun hm => (ha '-' hm).2 rfl) (fun hm => (hb '-' hm).2 rfl)]

/-- Witness for the amended C2: the spec's example `7.0-6` derives
`Proton 7.0`. -/
theorem c2_witness :
    (∀ c ∈ cs "7.0", isPySpace c = false ∧ c ≠ '-') ∧
    derivedRuntimeDirName (cs "7.0-6\n") = .ok (cs "Proton 7.0") :=
  ⟨by decide, c2_version_split (cs "7.0") (cs "6") [] (by decide) (by decide)⟩

/-- A world whose library-folder document has no entries at all, so no
entry matches the target application. -/
def worldC1 : World :=
  { lfDoc := Ents.cons (cs "libraryfolders") (.node .nil) .nil
    amDoc := .nil
    gid := cs "252950"
    versionFileAt := fun _ => none
    dirExists := fun _ => false }

/-- C1 counterexample: with no matching library entry,
`_locate_library_folder` returns `None`, and `__init__` then evaluates
`self._library_base_dir.joinpath(...)` on `None` and raises
`AttributeError` — construction does not complete with unresolved fields. -/
theorem c1_counterexample : protonHackInit worldC1 = .error .attrError := rfl

/-- C1 amended: in both scenarios the lookup helpers themselves produce the
explicit unresolved result `None` without raising — `_locate_library_folder`
when no entry matches, `_find_proton_dir` when the `version` marker file is
absent — but `ProtonHack.__init__` does not complete: it raises
`AttributeError` as soon as it calls `joinpath` on the `None` it received. -/
theorem c1_unresolved_fields_raise :
    (∀ (w : World) (lf : Ents),
      dictLookup (cs "libraryfolders") (initAcf w) = some (.node lf) →
      entsAll (entrySkipsB w.gid) lf = true →
      locate_library_folder (initAcf w) w.gid = .ok none ∧
      protonHackInit w = .error .attrError) ∧
    (∀ (w : World) (pre post fields apps : Ents) (k0 p0 : Str),
      dictLookup (cs "libraryfolders") (initAcf w)
        = some (.node (entsAppend pre (.cons k0 (.node fields) post))) →
      entsAll (entrySkipsB w.gid) pre = true →
      dictLookup (cs "apps") fields = some (.node apps) →
      (dictLookup w.gid apps).isSome = true →
      dictLookup k0 (entsAppend pre (.cons k0 (.node fields) post))
        = some (.node fields) →
      dictLookup (cs "path") fields = some (.leaf p0) →
      w.versionFileAt (pathJoin (pathJoin p0
        (pathNorm (cs "steamapps/compatdata/" ++ w.gid ++ ['/']))) (cs "version"))
        = none →
      find_proton_dir (initAcf w)
        (pathJoin p0 (pathNorm (cs "steamapps/compatdata/" ++ w.gid ++ ['/']))) w
        = .ok none ∧
      protonHackInit w = .error .attrError) := by
  constructor
  · intro w lf hlf hall
    have hloc := locate_none_of_skips hlf hall
    exact ⟨hloc, init_attr_of_locate_none hloc⟩
  · intro w pre post fields apps k0 p0 hlf hpre happs hgid hk0 hpath hver
    have hloc := locate_first_of hlf hpre happs hgid hk0 hpath
    have hfind := @find_none_of_no_version (initAcf w) _ _ hver
    exact ⟨hfind, init_attr_of_find_none hloc hfind⟩

/-- A library entry that does contain the target id. -/
def fieldsC1b : Ents :=
  Ents.cons (cs "path") (.leaf (cs "/mnt/a"))
    (Ents.cons (cs "apps") (.node (Ents.cons (cs "252950") (.leaf (cs "1")) .nil)) .nil)

/-- A world where the application is found but the `version` marker file of
its compat-data directory does not exist. -/
def worldC1b : World :=
  { lfDoc := Ents.cons (cs "libraryfolders")
      (.node (Ents.cons (cs "0") (.node fieldsC1b) .nil)) .nil
    amDoc := .nil
    gid := cs "252950"
    versionFileAt := fun _ => none
    dirExists := fun _ => false }

/-- Witness for the amended C1, covering both scenarios. -/
theorem c1_witness :
    (locate_library_folder (initAcf worldC1) worldC1.gid = .ok none ∧
      protonHackInit worldC1 = .error .attrError) ∧
    (find_proton_dir (initAcf worldC1b)
        (pathJoin (cs "/mnt/a")
          (pathNorm (cs "steamapps/compatdata/" ++ worldC1b.gid ++ ['/']))) worldC1b
        = .ok none ∧
      protonHackInit worldC1b = .error .attrError) :=
  ⟨c1_unresolved_fields_raise.1 worldC1 .nil (by decide) (by decide),
   c1_unresolved_fields_raise.2 worldC1b .nil .nil fieldsC1b
     (Ents.cons (cs "252950") (.leaf (cs "1")) .nil) (cs "0") (cs "/mnt/a")
     (by decide) (by decide) (by decide) (by decide) (by decide) (by decide) rfl⟩
